import Mathlib

/-!
Verification of the `simple-channels` bounded MPSC channel
(`src/mpsc/ring_buf.rs`, `src/mpsc/mod.rs`, `src/mpsc/error.rs`).

The embedding models the sequential (single-threaded, interleaved at
operation granularity) semantics of the ring buffer and of the channel
handles.  Machine integers (`usize`) are modelled as `Nat` reduced
modulo `USZ = 2 ^ 64`; Rust's `wrapping_sub` / `wrapping_add` become
explicit modular arithmetic.  Operations that can spin forever in a
single-threaded execution (the producer retry branch, the blocking
loops of `send` / `recv`) return `none` to mark "would not return on
this probe"; a returned outcome is `some`.
-/

namespace SimpleChannels

/-- Modulus of the 64-bit `usize` machine integers used for the cursors. -/
def USZ : Nat := 2 ^ 64

/-- Rust `a.wrapping_sub(b)` on `usize` (for `a b < USZ`). -/
def wrapSub (a b : Nat) : Nat := (a + USZ - b) % USZ

/-- Rust `usize::is_power_of_two`: nonzero and no two bits set,
computed as `n != 0 && n & (n - 1) == 0`. -/
def isPowerOfTwo (n : Nat) : Bool := n != 0 && n &&& (n - 1) == 0

/-- Shallow embedding of `RingBuf<T>` (`ring_buf.rs`): the slot array
(each slot's occupancy flag and payload merged into an `Option`),
the producer cursor `head`, the index mask, and the consumer cursor
`tail`. -/
structure RingBuf (α : Type) where
  buf : List (Option α)
  head : Nat
  mask : Nat
  tail : Nat
deriving DecidableEq

/-- `RingBuf::new(cap)` (`ring_buf.rs:41`): asserts that `cap` is a
power of two (a failed assert aborts, modelled as `none`), then
allocates `cap` empty slots with both cursors at 0 and
`mask = cap - 1`. -/
def RingBuf.new (α : Type) (cap : Nat) : Option (RingBuf α) :=
  if isPowerOfTwo cap then
    some { buf := List.replicate cap none, head := 0, mask := cap - 1, tail := 0 }
  else
    none

/-- `RingBuf::push` (`ring_buf.rs:57`), one sequential execution.
Loads `head`, addresses slot `head & mask`.  If the slot is occupied
and `head.wrapping_sub(tail) >= buf.len()` the buffer is genuinely
full: return `Err(value)`, state unchanged.  If the slot is occupied
but the buffer is not full the code spins and retries; sequentially
that branch never returns, modelled as `none`.  Otherwise the
compare-exchange on `head` succeeds (no concurrent producer in the
sequential model): the value is written, the slot published, and
`head` advanced with wraparound.  Result layout: `some (state, none)`
is `Ok(())`, `some (state, some v)` is `Err(v)`. -/
def RingBuf.push (rb : RingBuf α) (v : α) : Option (RingBuf α × Option α) :=
  let pos := rb.head &&& rb.mask
  match rb.buf.getD pos none with
  | some _ =>
    if rb.buf.length ≤ wrapSub rb.head rb.tail then
      some (rb, some v)
    else
      none
  | none =>
    some ({ rb with buf := rb.buf.set pos (some v), head := (rb.head + 1) % USZ }, none)

/-- `RingBuf::pop` (`ring_buf.rs:103`): addresses slot `tail & mask`;
if the slot is empty return `None` with the state unchanged, else move
the value out, mark the slot empty and advance `tail` with
wraparound. -/
def RingBuf.pop (rb : RingBuf α) : RingBuf α × Option α :=
  let pos := rb.tail &&& rb.mask
  match rb.buf.getD pos none with
  | none => (rb, none)
  | some v => ({ rb with buf := rb.buf.set pos none, tail := (rb.tail + 1) % USZ }, some v)

/-- Number of pushed-but-not-yet-popped items: the wrapping cursor
difference `head - tail`. -/
def RingBuf.dist (rb : RingBuf α) : Nat := wrapSub rb.head rb.tail

/-- Abstract queue contents: the values stored in the slots addressed
by the cursor window `tail, tail+1, …, head-1`, oldest first. -/
def RingBuf.absQ (rb : RingBuf α) : List α :=
  (List.range rb.dist).filterMap fun j => rb.buf.getD ((rb.tail + j) % rb.buf.length) none

/-- `SendError<T>` (`error.rs:9`): carries the value that could not be
sent. -/
structure SendError (α : Type) where
  val : α
deriving DecidableEq

/-- `RecvError` (`error.rs:30`). -/
inductive RecvError where
  | Disconnected
deriving DecidableEq

/-- `TryRecvError` (`error.rs:45`). -/
inductive TryRecvError where
  | Empty
  | Disconnected
deriving DecidableEq

/-- A channel as observed sequentially: the shared `RingBuf` plus the
handle census that determines `Arc::strong_count` — the number of live
`Sender` clones and whether the `Receiver` is still alive. -/
structure Channel (α : Type) where
  rb : RingBuf α
  senders : Nat
  receiverAlive : Bool
deriving DecidableEq

/-- `Arc::strong_count(&self.channel)`: every live `Sender` holds one
strong reference and the `Receiver`, while alive, holds one. -/
def Channel.strongCount (ch : Channel α) : Nat :=
  ch.senders + (if ch.receiverAlive then 1 else 0)

/-- `bounded(cap)` (`mod.rs:26`): builds the ring buffer (aborting on a
bad capacity, modelled as `none`) and returns it shared by one `Sender`
and one live `Receiver`. -/
def bounded (α : Type) (cap : Nat) : Option (Channel α) :=
  (RingBuf.new α cap).map fun rb => { rb := rb, senders := 1, receiverAlive := true }

/-- `Sender::send` (`mod.rs:41`), one sequential execution.  If the
strong count is 1 the receiver is gone: fail immediately with the
value.  Otherwise push; on success return `Ok`; on `Err` (full) the
code yields and re-checks disconnection — sequentially the strong count
is unchanged, so the re-check fails and the loop retries forever,
modelled as `none`. -/
def Channel.send (ch : Channel α) (v : α) : Channel α × Option (Except (SendError α) Unit) :=
  if ch.strongCount = 1 then
    (ch, some (.error ⟨v⟩))
  else
    match ch.rb.push v with
    | some (rb', none) => ({ ch with rb := rb' }, some (.ok ()))
    | some (rb', some v') =>
      if ch.strongCount = 1 then ({ ch with rb := rb' }, some (.error ⟨v'⟩))
      else ({ ch with rb := rb' }, none)
    | none => (ch, none)

/-- One probe of the `Receiver::recv` loop (`mod.rs:84`): pop first; on
a value return `Ok`; on `Empty`, return `Disconnected` if the strong
count is 1, else yield and retry (`none`). -/
def Channel.recvStep (ch : Channel α) : Channel α × Option (Except RecvError α) :=
  match ch.rb.pop with
  | (rb', some v) => ({ ch with rb := rb' }, some (.ok v))
  | (rb', none) =>
    if ch.strongCount = 1 then ({ ch with rb := rb' }, some (.error .Disconnected))
    else ({ ch with rb := rb' }, none)

/-- `Receiver::try_recv` (`mod.rs:103`): single non-blocking probe with
the same pop-then-disconnect-check order. -/
def Channel.tryRecv (ch : Channel α) : Channel α × Except TryRecvError α :=
  match ch.rb.pop with
  | (rb', some v) => ({ ch with rb := rb' }, .ok v)
  | (rb', none) =>
    if ch.strongCount = 1 then ({ ch with rb := rb' }, .error .Disconnected)
    else ({ ch with rb := rb' }, .error .Empty)

/-- A single ring-buffer operation of an interleaved sequential run. -/
inductive Op (α : Type) where
  | push (v : α)
  | pop
deriving DecidableEq

/-- Runs a sequence of operations, accumulating (in chronological
order) the values whose push reported success and the values returned
by successful pops.  `none` when some push hits its (sequentially
divergent) retry branch. -/
def runOps (rb : RingBuf α) : List (Op α) → Option (RingBuf α × List α × List α)
  | [] => some (rb, [], [])
  | Op.push v :: ops =>
    match rb.push v with
    | none => none
    | some (rb', r) =>
      match runOps rb' ops with
      | none => none
      | some (rbf, ps, qs) =>
        match r with
        | none => some (rbf, v :: ps, qs)
        | some _ => some (rbf, ps, qs)
  | Op.pop :: ops =>
    match rb.pop with
    | (rb', r) =>
      match runOps rb' ops with
      | none => none
      | some (rbf, ps, qs) =>
        match r with
        | none => some (rbf, ps, qs)
        | some v => some (rbf, ps, v :: qs)

/-- States of `RingBuf` reachable by sequential use: the capacity is a
positive power of two representable as `usize`, the mask matches, both
cursors are reduced `usize` values, at most `capacity` items are
outstanding, and a slot is occupied exactly when its index is hit by a
cursor in the window `tail … head-1`. -/
structure RingBuf.Inv (rb : RingBuf α) : Prop where
  pow : ∃ k ≤ 63, rb.buf.length = 2 ^ k
  mask_eq : rb.mask = rb.buf.length - 1
  head_lt : rb.head < USZ
  tail_lt : rb.tail < USZ
  dist_le : rb.dist ≤ rb.buf.length
  slots : ∀ i < rb.buf.length,
    (rb.buf.getD i none).isSome = true ↔ ∃ j < rb.dist, (rb.tail + j) % rb.buf.length = i

/-- Ring-buffer states reachable from `RingBuf::new cap` (for a `usize`
capacity) by any interleaving of completed `push` and `pop` calls. -/
inductive Reachable (α : Type) (cap : Nat) : RingBuf α → Prop where
  | init (rb : RingBuf α) (hcap : cap < USZ) (h : RingBuf.new α cap = some rb) :
      Reachable α cap rb
  | push (rb rb' : RingBuf α) (v : α) (r : Option α) (hr : Reachable α cap rb)
      (h : rb.push v = some (rb', r)) : Reachable α cap rb'
  | pop (rb rb' : RingBuf α) (r : Option α) (hr : Reachable α cap rb)
      (h : rb.pop = (rb', r)) : Reachable α cap rb'

/-- Relabelling of a ring-buffer state under a common cursor offset
`o`: both cursors advance by `o` modulo the machine width, and each
slot is relabelled accordingly, so that the slot a cursor `c`
addresses (through `& mask`) before the shift is the slot `c + o`
addresses after it. -/
def shiftCursors (rb : RingBuf α) (o : Nat) : RingBuf α :=
  ⟨List.ofFn fun i : Fin rb.buf.length =>
      rb.buf.getD ((i.val + (rb.buf.length - o % rb.buf.length)) % rb.buf.length) none,
    (rb.head + o) % USZ, rb.mask, (rb.tail + o) % USZ⟩

/-- Two ring-buffer states differ by the common cursor offset `o`:
both cursors are advanced by `o` (modulo the machine width), mask and
capacity agree, and the slot addressed (via `& mask`) by any shifted
cursor value holds the same content as the slot the original cursor
addresses in the original state. -/
structure ShiftRel (rb rbs : RingBuf α) (o : Nat) : Prop where
  head_eq : rbs.head = (rb.head + o) % USZ
  tail_eq : rbs.tail = (rb.tail + o) % USZ
  mask_eq : rbs.mask = rb.mask
  len_eq : rbs.buf.length = rb.buf.length
  slot_eq : ∀ c : Nat, rbs.buf.getD (((c + o) % USZ) &&& rbs.mask) none =
    rb.buf.getD (c &&& rb.mask) none

/-- The state `RingBuf::new(1)` produces: one empty slot, cursors at
zero, mask zero. -/
def rb1 : RingBuf Nat := ⟨[none], 0, 0, 0⟩

/-! Arithmetic facts about the wrapping cursor arithmetic. -/

theorem USZ_pos : 0 < USZ := Nat.two_pow_pos 64

theorem wrapSub_lt (a b : Nat) : wrapSub a b < USZ :=
  Nat.mod_lt _ USZ_pos

theorem wrapSub_spec (a b : Nat) (hb : b ≤ a + USZ) :
    (b + wrapSub a b) % USZ = a % USZ := by
  unfold wrapSub
  rw [Nat.add_mod_mod, Nat.add_sub_cancel' hb, Nat.add_mod_right]

theorem wrapSub_eq (a b x : Nat) (hb : b ≤ a + USZ) (hx : x < USZ)
    (h : (b + x) % USZ = a % USZ) : wrapSub a b = x := by
  have h1 : (b + x) % USZ = (b + wrapSub a b) % USZ := by
    rw [h, wrapSub_spec a b hb]
  have h2 : x ≡ wrapSub a b [MOD USZ] := Nat.ModEq.add_left_cancel' b h1
  have h3 : x % USZ = wrapSub a b % USZ := h2
  rw [Nat.mod_eq_of_lt hx, Nat.mod_eq_of_lt (wrapSub_lt a b)] at h3
  omega

theorem wrapSub_self (a : Nat) : wrapSub a a = 0 :=
  wrapSub_eq a a 0 (Nat.le_add_right _ _) USZ_pos (by rw [Nat.add_zero])

theorem wrapSub_add_one_left (a b : Nat) (hb : b < USZ)
    (hd : wrapSub a b + 1 < USZ) :
    wrapSub ((a + 1) % USZ) b = wrapSub a b + 1 := by
  apply wrapSub_eq
  · have := Nat.mod_lt (a + 1) USZ_pos
    omega
  · exact hd
  · rw [Nat.mod_mod_of_dvd _ dvd_rfl, ← Nat.add_assoc, ← Nat.mod_add_mod,
      wrapSub_spec a b (by omega), Nat.mod_add_mod]

theorem wrapSub_add_one_right (a b : Nat) (hb : b < USZ)
    (hd : 1 ≤ wrapSub a b) :
    wrapSub a ((b + 1) % USZ) = wrapSub a b - 1 := by
  apply wrapSub_eq
  · have := Nat.mod_lt (b + 1) USZ_pos
    omega
  · exact Nat.lt_of_le_of_lt (Nat.sub_le _ _) (wrapSub_lt a b)
  · rw [Nat.mod_add_mod]
    have he : b + 1 + (wrapSub a b - 1) = b + wrapSub a b := by omega
    rw [he, wrapSub_spec a b (by omega)]

theorem wrapSub_mod_dvd (a b c : Nat) (hb : b ≤ a + USZ) (hc : c ∣ USZ) :
    (b + wrapSub a b) % c = a % c :=
  Nat.ModEq.of_dvd hc (wrapSub_spec a b hb)

/-! The power-of-two test used by `RingBuf::new`. -/

theorem and_pred_eq_zero_of_pow (k : Nat) : (2 ^ k) &&& (2 ^ k - 1) = 0 := by
  apply Nat.eq_of_testBit_eq
  intro i
  rw [Nat.testBit_and, Nat.zero_testBit, Nat.testBit_two_pow, Nat.testBit_two_pow_sub_one]
  rcases eq_or_ne k i with h | h
  · subst h; simp
  · simp [h]

theorem pow_two_of_and_pred_eq_zero :
    ∀ n, n ≠ 0 → n &&& (n - 1) = 0 → ∃ k, n = 2 ^ k := by
  intro n
  induction n using Nat.strong_induction_on with
  | _ n ih =>
    intro hn h
    rcases Nat.lt_or_ge n 2 with h2 | h2
    · refine ⟨0, by omega⟩
    · rcases Nat.even_or_odd n with he | ho
      · obtain ⟨m, hm⟩ := he
        have hm1 : 1 ≤ m := by omega
        have hn2 : n / 2 = m := by omega
        have hn12 : (n - 1) / 2 = m - 1 := by omega
        have hstep : m &&& (m - 1) = 0 := by
          apply Nat.eq_of_testBit_eq
          intro i
          have h1 : m.testBit i = n.testBit (i + 1) := by
            rw [← hn2, Nat.testBit_div_two]
          have h2' : (m - 1).testBit i = (n - 1).testBit (i + 1) := by
            rw [← hn12, Nat.testBit_div_two]
          have h3 : (n &&& (n - 1)).testBit (i + 1) = false := by
            rw [h]; exact Nat.zero_testBit _
          rw [Nat.testBit_and] at h3
          rw [Nat.testBit_and, Nat.zero_testBit, h1, h2']
          exact h3
        obtain ⟨k, hk⟩ := ih m (by omega) (by omega) hstep
        refine ⟨k + 1, ?_⟩
        have hp : 2 ^ (k + 1) = 2 ^ k * 2 := Nat.pow_succ ..
        omega
      · obtain ⟨m, hm⟩ := ho
        have hm1 : 1 ≤ m := by omega
        have hex : ∃ j, m.testBit j = true := by
          by_contra hc
          push_neg at hc
          have : m = 0 := by
            apply Nat.eq_of_testBit_eq
            intro i
            rw [Nat.zero_testBit]
            exact (Bool.not_eq_true _).mp (hc i)
          omega
        obtain ⟨j, hj⟩ := hex
        have hd2 : n / 2 = m := by omega
        have hd12 : (n - 1) / 2 = m := by omega
        have hb1 : n.testBit (j + 1) = true := by
          rw [← Nat.testBit_div_two, hd2]; exact hj
        have hb2 : (n - 1).testBit (j + 1) = true := by
          rw [← Nat.testBit_div_two, hd12]; exact hj
        have hcontra : (n &&& (n - 1)).testBit (j + 1) = true := by
          rw [Nat.testBit_and, hb1, hb2]; rfl
        rw [h, Nat.zero_testBit] at hcontra
        exact absurd hcontra (by simp)

theorem isPowerOfTwo_iff (n : Nat) : isPowerOfTwo n = true ↔ ∃ k, n = 2 ^ k := by
  unfold isPowerOfTwo
  constructor
  · intro h
    simp only [Bool.and_eq_true, bne_iff_ne, ne_eq, beq_iff_eq] at h
    exact pow_two_of_and_pred_eq_zero n h.1 h.2
  · rintro ⟨k, rfl⟩
    simp only [Bool.and_eq_true, bne_iff_ne, ne_eq, beq_iff_eq]
    exact ⟨Nat.pos_iff_ne_zero.mp (Nat.two_pow_pos k), and_pred_eq_zero_of_pow k⟩

/-! The sequential ring-buffer invariant and the behaviour of `push`
and `pop` on states satisfying it. -/

theorem RingBuf.Inv.cap_pos {rb : RingBuf α} (h : rb.Inv) : 0 < rb.buf.length := by
  obtain ⟨k, _, hk⟩ := h.pow
  rw [hk]; exact Nat.two_pow_pos k

theorem RingBuf.Inv.cap_lt {rb : RingBuf α} (h : rb.Inv) : rb.buf.length < USZ := by
  obtain ⟨k, hk63, hk⟩ := h.pow
  rw [hk]; unfold USZ
  exact Nat.pow_lt_pow_right (by omega) (by omega)

theorem RingBuf.Inv.cap_dvd {rb : RingBuf α} (h : rb.Inv) : rb.buf.length ∣ USZ := by
  obtain ⟨k, hk63, hk⟩ := h.pow
  rw [hk]; unfold USZ
  exact Nat.pow_dvd_pow 2 (by omega)

theorem RingBuf.Inv.mask_mod {rb : RingBuf α} (h : rb.Inv) (c : Nat) :
    c &&& rb.mask = c % rb.buf.length := by
  obtain ⟨k, _, hk⟩ := h.pow
  rw [h.mask_eq, hk, Nat.and_pow_two_sub_one_eq_mod]

theorem RingBuf.Inv.head_mod {rb : RingBuf α} (h : rb.Inv) :
    rb.head % rb.buf.length = (rb.tail + rb.dist) % rb.buf.length := by
  have hb : rb.tail ≤ rb.head + USZ := by
    have := h.tail_lt; omega
  exact (wrapSub_mod_dvd rb.head rb.tail rb.buf.length hb h.cap_dvd).symm

theorem window_inj (t c j1 j2 : Nat) (h1 : j1 < c) (h2 : j2 < c)
    (h : (t + j1) % c = (t + j2) % c) : j1 = j2 := by
  have h2' : j1 ≡ j2 [MOD c] := Nat.ModEq.add_left_cancel' t h
  have h3 : j1 % c = j2 % c := h2'
  rw [Nat.mod_eq_of_lt h1, Nat.mod_eq_of_lt h2] at h3
  exact h3

theorem add_mod_usz_mod (a j c : Nat) (hc : c ∣ USZ) :
    (a % USZ + j) % c = (a + j) % c := by
  conv_lhs => rw [Nat.add_mod]
  rw [Nat.mod_mod_of_dvd a hc, ← Nat.add_mod]

theorem length_filterMap_of_isSome {β γ : Type} {f : β → Option γ} :
    ∀ l : List β, (∀ a ∈ l, (f a).isSome = true) → (l.filterMap f).length = l.length
  | [], _ => rfl
  | a :: l, h => by
    cases hf : f a with
    | none =>
      have := h a (by simp)
      rw [hf] at this
      simp at this
    | some c =>
      have ih := length_filterMap_of_isSome l (fun b hb => h b (by simp [hb]))
      simp [List.filterMap_cons, hf, ih]

theorem filterMap_congr_mem {β γ : Type} {f g : β → Option γ} :
    ∀ l : List β, (∀ a ∈ l, f a = g a) → l.filterMap f = l.filterMap g
  | [], _ => rfl
  | a :: l, h => by
    have ih := filterMap_congr_mem l (fun b hb => h b (by simp [hb]))
    simp only [List.filterMap_cons, h a (by simp), ih]

/-- A `push` on a non-full buffer satisfying the invariant: the
compare-exchange branch is taken, exactly the slot `head & mask` flips
from empty to occupied, `head` advances, the invariant is preserved,
and the abstract queue grows by the pushed value at the back. -/
theorem push_ok {α : Type} {rb : RingBuf α} (h : rb.Inv) (v : α)
    (hd : rb.dist < rb.buf.length) :
    ∃ rb' : RingBuf α,
      rb.push v = some (rb', none) ∧
      rb'.buf = rb.buf.set (rb.head % rb.buf.length) (some v) ∧
      rb.buf.getD (rb.head % rb.buf.length) none = none ∧
      rb'.head = (rb.head + 1) % USZ ∧ rb'.mask = rb.mask ∧ rb'.tail = rb.tail ∧
      rb'.Inv ∧ rb'.dist = rb.dist + 1 ∧ rb'.absQ = rb.absQ ++ [v] := by
  have hcpos := h.cap_pos
  have hclt := h.cap_lt
  set cap := rb.buf.length with hcap
  replace hd : wrapSub rb.head rb.tail < cap := hd
  have hhm : rb.head % cap = (rb.tail + wrapSub rb.head rb.tail) % cap := h.head_mod
  have hslots : ∀ i < cap, (rb.buf.getD i none).isSome = true ↔
      ∃ j < wrapSub rb.head rb.tail, (rb.tail + j) % cap = i := h.slots
  have hplt : rb.head % cap < cap := Nat.mod_lt _ hcpos
  have hslot : rb.buf.getD (rb.head % cap) none = none := by
    cases hx : rb.buf.getD (rb.head % cap) none with
    | none => rfl
    | some w =>
      exfalso
      obtain ⟨j, hj, hje⟩ := (hslots _ hplt).mp (by rw [hx]; rfl)
      rw [hhm] at hje
      have := window_inj rb.tail cap j (wrapSub rb.head rb.tail) (by omega) hd hje
      omega
  have hdist1 : wrapSub ((rb.head + 1) % USZ) rb.tail = wrapSub rb.head rb.tail + 1 :=
    wrapSub_add_one_left rb.head rb.tail h.tail_lt (by omega)
  refine ⟨⟨rb.buf.set (rb.head % cap) (some v), (rb.head + 1) % USZ, rb.mask, rb.tail⟩,
    ?_, rfl, hslot, rfl, rfl, rfl, ?_, hdist1, ?_⟩
  · -- the push equation
    have hmask := h.mask_mod rb.head
    unfold RingBuf.push
    simp only [hmask, hslot]
  · -- the invariant on the successor state
    refine ⟨?_, ?_, Nat.mod_lt _ USZ_pos, h.tail_lt, ?_, ?_⟩
    · simpa only [List.length_set] using h.pow
    · simpa only [List.length_set] using h.mask_eq
    · show wrapSub ((rb.head + 1) % USZ) rb.tail ≤ (rb.buf.set (rb.head % cap) (some v)).length
      rw [hdist1, List.length_set]
      omega
    · intro i hi
      rw [List.length_set] at hi
      show ((rb.buf.set (rb.head % cap) (some v)).getD i none).isSome = true ↔
        ∃ j < wrapSub ((rb.head + 1) % USZ) rb.tail,
          (rb.tail + j) % (rb.buf.set (rb.head % cap) (some v)).length = i
      rw [hdist1, List.length_set, List.getD_eq_getElem?_getD]
      by_cases hip : i = rb.head % cap
      · subst hip
        rw [List.getElem?_set_self hplt]
        simp only [Option.getD_some, Option.isSome_some, true_iff]
        exact ⟨wrapSub rb.head rb.tail, by omega, hhm.symm⟩
      · rw [List.getElem?_set_ne (fun he => hip he.symm), ← List.getD_eq_getElem?_getD,
          hslots i hi]
        constructor
        · rintro ⟨j, hj, hje⟩
          exact ⟨j, by omega, hje⟩
        · rintro ⟨j, hj, hje⟩
          refine ⟨j, ?_, hje⟩
          rcases Nat.lt_or_ge j (wrapSub rb.head rb.tail) with hlt | hge
          · exact hlt
          · exfalso
            have hjd : j = wrapSub rb.head rb.tail := by omega
            subst hjd
            rw [← hhm] at hje
            exact hip hje.symm
  · -- the abstract queue grows at the back
    unfold RingBuf.absQ
    show List.filterMap _ (List.range (wrapSub ((rb.head + 1) % USZ) rb.tail)) = _
    rw [hdist1, List.range_succ, List.filterMap_append]
    congr 1
    · apply filterMap_congr_mem
      intro j hj
      rw [List.mem_range] at hj
      show (rb.buf.set (rb.head % cap) (some v)).getD
          ((rb.tail + j) % (rb.buf.set (rb.head % cap) (some v)).length) none =
        rb.buf.getD ((rb.tail + j) % cap) none
      rw [List.length_set]
      have hne : rb.head % cap ≠ (rb.tail + j) % cap := by
        rw [hhm]
        intro he
        have := window_inj rb.tail cap (wrapSub rb.head rb.tail) j hd (by omega) he
        omega
      rw [List.getD_eq_getElem?_getD, List.getElem?_set_ne hne, ← List.getD_eq_getElem?_getD]
    · show List.filterMap _ [wrapSub rb.head rb.tail] = [v]
      have hgd : (rb.buf.set (rb.head % cap) (some v)).getD
          ((rb.tail + wrapSub rb.head rb.tail) %
            (rb.buf.set (rb.head % cap) (some v)).length) none = some v := by
        rw [List.length_set, ← hhm, List.getD_eq_getElem?_getD, List.getElem?_set_self hplt]
        rfl
      simp only [List.filterMap_cons, hgd, List.filterMap_nil]

/-- A `push` on a genuinely full buffer satisfying the invariant: the
slot under `head` is occupied, the fullness re-check fires, and the
value comes back with the state untouched. -/
theorem push_full {α : Type} {rb : RingBuf α} (h : rb.Inv) (v : α)
    (hd : rb.dist = rb.buf.length) :
    rb.push v = some (rb, some v) := by
  have hcpos := h.cap_pos
  set cap := rb.buf.length with hcap
  replace hd : wrapSub rb.head rb.tail = cap := hd
  have hhm : rb.head % cap = (rb.tail + wrapSub rb.head rb.tail) % cap := h.head_mod
  have hslots : ∀ i < cap, (rb.buf.getD i none).isSome = true ↔
      ∃ j < wrapSub rb.head rb.tail, (rb.tail + j) % cap = i := h.slots
  have hplt : rb.head % cap < cap := Nat.mod_lt _ hcpos
  have hidx : (rb.tail + 0) % cap = rb.head % cap := by
    rw [hhm, hd, Nat.add_zero, Nat.add_mod_right]
  have hs := (hslots _ hplt).mpr ⟨0, by omega, hidx⟩
  obtain ⟨w, hw⟩ : ∃ w, rb.buf.getD (rb.head % cap) none = some w := by
    cases hx : rb.buf.getD (rb.head % cap) none with
    | none => rw [hx] at hs; exact absurd hs (by simp)
    | some w => exact ⟨w, rfl⟩
  have hmask := h.mask_mod rb.head
  unfold RingBuf.push
  simp only [hmask, hw]
  rw [if_pos (by omega)]

/-- A `pop` on an empty buffer satisfying the invariant: the slot under
`tail` is empty and the state is untouched. -/
theorem pop_empty {α : Type} {rb : RingBuf α} (h : rb.Inv) (hd : rb.dist = 0) :
    rb.pop = (rb, none) := by
  have hcpos := h.cap_pos
  set cap := rb.buf.length with hcap
  replace hd : wrapSub rb.head rb.tail = 0 := hd
  have hslots : ∀ i < cap, (rb.buf.getD i none).isSome = true ↔
      ∃ j < wrapSub rb.head rb.tail, (rb.tail + j) % cap = i := h.slots
  have htlt : rb.tail % cap < cap := Nat.mod_lt _ hcpos
  have hslot : rb.buf.getD (rb.tail % cap) none = none := by
    cases hx : rb.buf.getD (rb.tail % cap) none with
    | none => rfl
    | some w =>
      obtain ⟨j, hj, _⟩ := (hslots _ htlt).mp (by rw [hx]; rfl)
      omega
  have hmask := h.mask_mod rb.tail
  unfold RingBuf.pop
  simp only [hmask, hslot]

/-- A `pop` on a non-empty buffer satisfying the invariant: exactly the
slot `tail & mask` flips from occupied to empty, its value (the head of
the abstract queue) is returned, `tail` advances, and the invariant is
preserved. -/
theorem pop_some {α : Type} {rb : RingBuf α} (h : rb.Inv) (hd : 1 ≤ rb.dist) :
    ∃ (w : α) (rb' : RingBuf α),
      rb.pop = (rb', some w) ∧
      rb.buf.getD (rb.tail % rb.buf.length) none = some w ∧
      rb'.buf = rb.buf.set (rb.tail % rb.buf.length) none ∧
      rb'.head = rb.head ∧ rb'.mask = rb.mask ∧ rb'.tail = (rb.tail + 1) % USZ ∧
      rb'.Inv ∧ rb'.dist = rb.dist - 1 ∧ rb.absQ = w :: rb'.absQ := by
  have hcpos := h.cap_pos
  have hclt := h.cap_lt
  have hdvd := h.cap_dvd
  replace hd : 1 ≤ wrapSub rb.head rb.tail := hd
  have hdle : wrapSub rb.head rb.tail ≤ rb.buf.length := h.dist_le
  have hslots : ∀ i < rb.buf.length, (rb.buf.getD i none).isSome = true ↔
      ∃ j < wrapSub rb.head rb.tail, (rb.tail + j) % rb.buf.length = i := h.slots
  have htlt : rb.tail % rb.buf.length < rb.buf.length := Nat.mod_lt _ hcpos
  have hidx : (rb.tail + 0) % rb.buf.length = rb.tail % rb.buf.length := by rw [Nat.add_zero]
  have hs := (hslots _ htlt).mpr ⟨0, by omega, hidx⟩
  obtain ⟨w, hw⟩ : ∃ w, rb.buf.getD (rb.tail % rb.buf.length) none = some w := by
    cases hx : rb.buf.getD (rb.tail % rb.buf.length) none with
    | none => rw [hx] at hs; exact absurd hs (by simp)
    | some w => exact ⟨w, rfl⟩
  have hdist1 : wrapSub rb.head ((rb.tail + 1) % USZ) = wrapSub rb.head rb.tail - 1 :=
    wrapSub_add_one_right rb.head rb.tail h.tail_lt hd
  have hne0 : ∀ j, 1 + j < rb.buf.length →
      (rb.tail + (1 + j)) % rb.buf.length ≠ rb.tail % rb.buf.length := by
    intro j hj he
    rw [← hidx] at he
    have := window_inj rb.tail rb.buf.length (1 + j) 0 (by omega) (by omega) he
    omega
  have hix : ∀ j : Nat,
      ((rb.tail + 1) % USZ + j) % rb.buf.length = (rb.tail + (1 + j)) % rb.buf.length := by
    intro j
    rw [add_mod_usz_mod _ _ _ hdvd, Nat.add_assoc]
  refine ⟨w, ⟨rb.buf.set (rb.tail % rb.buf.length) none, rb.head, rb.mask,
    (rb.tail + 1) % USZ⟩, ?_, hw, rfl, rfl, rfl, rfl, ?_, hdist1, ?_⟩
  · -- the pop equation
    have hmask := h.mask_mod rb.tail
    unfold RingBuf.pop
    simp only [hmask, hw]
  · -- the invariant on the successor state
    refine ⟨?_, ?_, h.head_lt, Nat.mod_lt _ USZ_pos, ?_, ?_⟩
    · simpa only [List.length_set] using h.pow
    · simpa only [List.length_set] using h.mask_eq
    · show wrapSub rb.head ((rb.tail + 1) % USZ) ≤
        (rb.buf.set (rb.tail % rb.buf.length) none).length
      rw [hdist1, List.length_set]
      omega
    · intro i hi
      rw [List.length_set] at hi
      show ((rb.buf.set (rb.tail % rb.buf.length) none).getD i none).isSome = true ↔
        ∃ j < wrapSub rb.head ((rb.tail + 1) % USZ),
          ((rb.tail + 1) % USZ + j) % (rb.buf.set (rb.tail % rb.buf.length) none).length = i
      rw [hdist1, List.length_set]
      rw [List.getD_eq_getElem?_getD]
      by_cases hip : i = rb.tail % rb.buf.length
      · subst hip
        rw [List.getElem?_set_self htlt]
        simp only [Option.getD_some, Option.isSome_none, Bool.false_eq_true, false_iff]
        rintro ⟨j, hj, hje⟩
        rw [hix j] at hje
        exact hne0 j (by omega) hje
      · rw [List.getElem?_set_ne (fun he => hip he.symm), ← List.getD_eq_getElem?_getD,
          hslots i hi]
        constructor
        · rintro ⟨j, hj, hje⟩
          have hj0 : j ≠ 0 := by
            intro h0
            subst h0
            exact hip (by rw [← hje, Nat.add_zero])
          refine ⟨j - 1, by omega, ?_⟩
          rw [hix (j - 1)]
          have he : 1 + (j - 1) = j := by omega
          rw [he]
          exact hje
        · rintro ⟨j, hj, hje⟩
          rw [hix j] at hje
          exact ⟨1 + j, by omega, hje⟩
  · -- the abstract queue loses its head
    have he : wrapSub rb.head rb.tail = (wrapSub rb.head rb.tail - 1) + 1 := by omega
    unfold RingBuf.absQ
    show List.filterMap _ (List.range (wrapSub rb.head rb.tail)) =
      w :: List.filterMap _ (List.range (wrapSub rb.head ((rb.tail + 1) % USZ)))
    rw [hdist1, he, List.range_succ_eq_map]
    simp only [List.filterMap_cons, Nat.add_zero, hw, List.filterMap_map]
    congr 1
    apply filterMap_congr_mem
    intro j hj
    rw [List.mem_range] at hj
    have hje : 1 + j = Nat.succ j := by omega
    have hkey : (rb.buf.set (rb.tail % rb.buf.length) none).getD
        (((rb.tail + 1) % USZ + j) %
          (rb.buf.set (rb.tail % rb.buf.length) none).length) none =
      rb.buf.getD ((rb.tail + Nat.succ j) % rb.buf.length) none := by
      rw [List.length_set, hix j]
      rw [hje, List.getD_eq_getElem?_getD,
        List.getElem?_set_ne (fun hx => hne0 j (by omega) (by rw [hje]; exact hx.symm)),
        ← List.getD_eq_getElem?_getD]
    exact hkey.symm

/-- The state built by `RingBuf::new` satisfies the invariant with an
empty abstract queue. -/
theorem Inv_new {α : Type} (cap : Nat) (rb : RingBuf α)
    (hlt : cap < USZ) (h : RingBuf.new α cap = some rb) :
    rb.Inv ∧ rb.absQ = [] ∧ rb.dist = 0 ∧ rb.buf.length = cap := by
  unfold RingBuf.new at h
  split at h
  case isTrue hpow =>
    injection h with h
    subst h
    obtain ⟨k, hk⟩ := (isPowerOfTwo_iff cap).mp hpow
    have hk63 : k ≤ 63 := by
      subst hk
      unfold USZ at hlt
      have := (Nat.pow_lt_pow_iff_right (by omega : 1 < 2)).mp hlt
      omega
    refine ⟨⟨⟨k, hk63, by simpa using hk⟩, by simp, USZ_pos, USZ_pos, ?_, ?_⟩, ?_, ?_, by simp⟩
    · show wrapSub 0 0 ≤ _
      rw [wrapSub_self]
      exact Nat.zero_le _
    · intro i hi
      simp only [List.length_replicate] at hi
      show ((List.replicate cap (none : Option α)).getD i none).isSome = true ↔
        ∃ j < wrapSub 0 0, _ = i
      rw [wrapSub_self, List.getD_eq_getElem?_getD, List.getElem?_replicate_of_lt hi]
      simp
    · show List.filterMap _ (List.range (wrapSub 0 0)) = []
      rw [wrapSub_self]
      rfl
    · show wrapSub 0 0 = 0
      exact wrapSub_self 0
  case isFalse =>
    exact absurd h (by simp)

/-- Under the invariant a `push` always returns an outcome on its first
attempt: success, or the full-buffer error with the state untouched. -/
theorem push_cases {α : Type} {rb : RingBuf α} (h : rb.Inv) (v : α) :
    (∃ rb', rb.push v = some (rb', none)) ∨ rb.push v = some (rb, some v) := by
  rcases Nat.lt_or_ge rb.dist rb.buf.length with hlt | hge
  · obtain ⟨rb', h1, _⟩ := push_ok h v hlt
    exact Or.inl ⟨rb', h1⟩
  · exact Or.inr (push_full h v (Nat.le_antisymm h.dist_le hge))

/-- Structurally (no invariant needed), a failed `push` hands back
exactly the value passed in and leaves the state unchanged. -/
theorem push_err_eq {α : Type} {rb rb' : RingBuf α} {v v' : α}
    (h : rb.push v = some (rb', some v')) : rb' = rb ∧ v' = v := by
  unfold RingBuf.push at h
  cases hx : rb.buf.getD (rb.head &&& rb.mask) none with
  | none =>
    simp only [hx] at h
    exact absurd h (by simp)
  | some w =>
    simp only [hx] at h
    split at h
    · simp only [Option.some.injEq, Prod.mk.injEq] at h
      exact ⟨h.1.symm, h.2.symm⟩
    · exact absurd h (by simp)

/-- Structurally, a `pop` that reports `Empty` leaves the state
unchanged. -/
theorem pop_none_eq {α : Type} {rb rb' : RingBuf α}
    (h : rb.pop = (rb', none)) : rb' = rb := by
  unfold RingBuf.pop at h
  cases hx : rb.buf.getD (rb.tail &&& rb.mask) none with
  | none =>
    simp only [hx, Prod.mk.injEq] at h
    exact h.1.symm
  | some w =>
    simp only [hx] at h
    exact absurd h (by simp)

/-- Under the invariant the abstract queue has exactly `head - tail`
entries: every window slot is occupied. -/
theorem absQ_length {α : Type} {rb : RingBuf α} (h : rb.Inv) :
    rb.absQ.length = rb.dist := by
  unfold RingBuf.absQ
  rw [length_filterMap_of_isSome]
  · exact List.length_range _
  · intro j hj
    rw [List.mem_range] at hj
    have hjlt : (rb.tail + j) % rb.buf.length < rb.buf.length := Nat.mod_lt _ h.cap_pos
    exact (h.slots _ hjlt).mpr ⟨j, hj, rfl⟩

theorem absQ_nil_iff {α : Type} {rb : RingBuf α} (h : rb.Inv) :
    rb.absQ = [] ↔ rb.dist = 0 := by
  rw [← absQ_length h, List.length_eq_zero]

/-- Every reachable state satisfies the invariant and keeps the
capacity it was built with. -/
theorem Reachable.inv {α : Type} {cap : Nat} {rb : RingBuf α}
    (h : Reachable α cap rb) : rb.Inv ∧ rb.buf.length = cap := by
  induction h with
  | init rb hcap hnew =>
    obtain ⟨hi, _, _, hlen⟩ := Inv_new cap rb hcap hnew
    exact ⟨hi, hlen⟩
  | push rb rb' v r hr hp ih =>
    obtain ⟨hi, hlen⟩ := ih
    rcases Nat.lt_or_ge rb.dist rb.buf.length with hlt | hge
    · obtain ⟨rb2, he, hbuf, _, _, _, _, hinv, _, _⟩ := push_ok hi v hlt
      rw [he] at hp
      injection hp with hp
      obtain ⟨h1, _⟩ := Prod.mk.injEq .. ▸ hp
      subst h1
      refine ⟨hinv, ?_⟩
      rw [hbuf, List.length_set]
      exact hlen
    · have he := push_full hi v (Nat.le_antisymm hi.dist_le hge)
      rw [he] at hp
      injection hp with hp
      obtain ⟨h1, _⟩ := Prod.mk.injEq .. ▸ hp
      subst h1
      exact ⟨hi, hlen⟩
  | pop rb rb' r hr hp ih =>
    obtain ⟨hi, hlen⟩ := ih
    rcases Nat.eq_zero_or_pos rb.dist with h0 | h1
    · have he := pop_empty hi h0
      rw [he] at hp
      obtain ⟨h1, _⟩ := Prod.mk.injEq .. ▸ hp
      subst h1
      exact ⟨hi, hlen⟩
    · obtain ⟨w, rb2, he, _, hbuf, _, _, _, hinv, _, _⟩ := pop_some hi h1
      rw [he] at hp
      obtain ⟨h1, _⟩ := Prod.mk.injEq .. ▸ hp
      subst h1
      refine ⟨hinv, ?_⟩
      rw [hbuf, List.length_set]
      exact hlen

/-- Running any operation sequence from an invariant state returns an
outcome for every operation, preserves the invariant, and balances the
books: initial queue contents plus successfully pushed values equals
popped values plus final queue contents, in order. -/
theorem runOps_spec {α : Type} :
    ∀ (ops : List (Op α)) (rb : RingBuf α), rb.Inv →
      ∃ rbf ps qs, runOps rb ops = some (rbf, ps, qs) ∧ rbf.Inv ∧
        rb.absQ ++ ps = qs ++ rbf.absQ := by
  intro ops
  induction ops with
  | nil =>
    intro rb h
    exact ⟨rb, [], [], rfl, h, by simp⟩
  | cons op ops ih =>
    intro rb h
    cases op with
    | push v =>
      rcases Nat.lt_or_ge rb.dist rb.buf.length with hlt | hge
      · obtain ⟨rb2, he, _, _, _, _, _, hinv2, _, habs⟩ := push_ok h v hlt
        obtain ⟨rbf, ps, qs, hrun, hinvf, heq⟩ := ih rb2 hinv2
        refine ⟨rbf, v :: ps, qs, ?_, hinvf, ?_⟩
        · simp only [runOps, he, hrun]
        · rw [habs] at heq
          rw [← heq]
          simp
      · have he := push_full h v (Nat.le_antisymm h.dist_le hge)
        obtain ⟨rbf, ps, qs, hrun, hinvf, heq⟩ := ih rb h
        refine ⟨rbf, ps, qs, ?_, hinvf, heq⟩
        simp only [runOps, he, hrun]
    | pop =>
      rcases Nat.eq_zero_or_pos rb.dist with h0 | h1
      · have he := pop_empty h h0
        obtain ⟨rbf, ps, qs, hrun, hinvf, heq⟩ := ih rb h
        refine ⟨rbf, ps, qs, ?_, hinvf, heq⟩
        simp only [runOps, he, hrun]
      · obtain ⟨w, rb2, he, _, _, _, _, _, hinv2, _, habs⟩ := pop_some h h1
        obtain ⟨rbf, ps, qs, hrun, hinvf, heq⟩ := ih rb2 hinv2
        refine ⟨rbf, ps, w :: qs, ?_, hinvf, ?_⟩
        · simp only [runOps, he, hrun]
        · rw [habs]
          simp only [List.cons_append, heq]

/-! Benign cursor wraparound: states related by a common cursor offset
behave identically. -/

theorem mask_bridge (x cap mask : Nat) (hk : ∃ k ≤ 63, cap = 2 ^ k)
    (hm : mask = cap - 1) : x &&& mask = x % cap := by
  obtain ⟨k, _, hk⟩ := hk
  rw [hm, hk, Nat.and_pow_two_sub_one_eq_mod]

theorem pow_pos_of (cap : Nat) (hk : ∃ k ≤ 63, cap = 2 ^ k) : 0 < cap := by
  obtain ⟨k, _, hk⟩ := hk
  rw [hk]; exact Nat.two_pow_pos k

theorem pow_dvd_usz (cap : Nat) (hk : ∃ k ≤ 63, cap = 2 ^ k) : cap ∣ USZ := by
  obtain ⟨k, hk63, hk⟩ := hk
  rw [hk]; unfold USZ
  exact Nat.pow_dvd_pow 2 (by omega)

theorem wrapSub_shift (a b o : Nat) (hb : b < USZ) :
    wrapSub ((a + o) % USZ) ((b + o) % USZ) = wrapSub a b := by
  apply wrapSub_eq
  · have h1 := Nat.mod_lt (b + o) USZ_pos
    omega
  · exact wrapSub_lt a b
  · rw [Nat.mod_mod_of_dvd _ dvd_rfl, Nat.mod_add_mod]
    have he : b + o + wrapSub a b = b + wrapSub a b + o := by omega
    rw [he, ← Nat.mod_add_mod, wrapSub_spec a b (by omega), Nat.mod_add_mod]

theorem shift_index (c o cap : Nat) (hpos : 0 < cap) :
    ((c + o) % cap + (cap - o % cap)) % cap = c % cap := by
  rw [Nat.mod_add_mod]
  have hd := Nat.div_add_mod o cap
  have hle : o % cap < cap := Nat.mod_lt _ hpos
  have he : c + o + (cap - o % cap) = c + cap * (o / cap) + cap * 1 := by omega
  rw [he, Nat.add_mul_mod_self_left, Nat.add_mul_mod_self_left]

/-- The canonical relabelled state realises the shift relation. -/
theorem shiftCursors_rel {α : Type} (rb : RingBuf α) (o : Nat)
    (hk : ∃ k ≤ 63, rb.buf.length = 2 ^ k)
    (hmask : rb.mask = rb.buf.length - 1) :
    ShiftRel rb (shiftCursors rb o) o := by
  have hpos : 0 < rb.buf.length := pow_pos_of _ hk
  have hdvd : rb.buf.length ∣ USZ := pow_dvd_usz _ hk
  refine ⟨rfl, rfl, rfl, ?_, ?_⟩
  · simp only [shiftCursors]
    exact List.length_ofFn _
  · intro c
    simp only [shiftCursors]
    rw [mask_bridge _ _ _ hk hmask, mask_bridge _ _ _ hk hmask,
      Nat.mod_mod_of_dvd _ hdvd]
    have hi : (c + o) % rb.buf.length < rb.buf.length := Nat.mod_lt _ hpos
    rw [List.getD_eq_getElem?_getD, List.getElem?_ofFn]
    unfold List.ofFnNthVal
    rw [dif_pos hi]
    show rb.buf.getD (((c + o) % rb.buf.length +
      (rb.buf.length - o % rb.buf.length)) % rb.buf.length) none = _
    rw [shift_index c o _ hpos]

/-- Writing through shifted cursors preserves the shift relation on
slots: setting the slot addressed by cursor `b + o` in the shifted
state mirrors setting the slot addressed by `b` in the original. -/
theorem shiftRel_set {α : Type} {rb rbs : RingBuf α} {o : Nat}
    (hk : ∃ k ≤ 63, rb.buf.length = 2 ^ k)
    (hmask : rb.mask = rb.buf.length - 1)
    (hrel : ShiftRel rb rbs o) (b : Nat) (x : Option α) :
    ∀ c : Nat,
      (rbs.buf.set (((b + o) % USZ) &&& rbs.mask) x).getD
        (((c + o) % USZ) &&& rbs.mask) none =
      (rb.buf.set (b &&& rb.mask) x).getD (c &&& rb.mask) none := by
  intro c
  have hpos : 0 < rb.buf.length := pow_pos_of _ hk
  have hdvd : rb.buf.length ∣ USZ := pow_dvd_usz _ hk
  have hks : ∃ k ≤ 63, rbs.buf.length = 2 ^ k := by rw [hrel.len_eq]; exact hk
  have hmS : rbs.mask = rbs.buf.length - 1 := by
    rw [hrel.mask_eq, hrel.len_eq]; exact hmask
  rw [mask_bridge _ _ _ hks hmS, mask_bridge _ _ _ hks hmS,
    mask_bridge _ _ _ hk hmask, mask_bridge _ _ _ hk hmask,
    hrel.len_eq, Nat.mod_mod_of_dvd _ hdvd, Nat.mod_mod_of_dvd _ hdvd]
  by_cases hbc : c % rb.buf.length = b % rb.buf.length
  · have h2 : (c + o) % rb.buf.length = (b + o) % rb.buf.length :=
      Nat.ModEq.add_right o hbc
    rw [hbc, h2, List.getD_eq_getElem?_getD, List.getD_eq_getElem?_getD,
      List.getElem?_set_self (show (b + o) % rb.buf.length < rbs.buf.length by
        rw [hrel.len_eq]; exact Nat.mod_lt _ hpos),
      List.getElem?_set_self (Nat.mod_lt _ hpos)]
  · have h2 : (c + o) % rb.buf.length ≠ (b + o) % rb.buf.length := fun he =>
      hbc (Nat.ModEq.add_right_cancel' o he)
    have hse := hrel.slot_eq c
    rw [mask_bridge _ _ _ hks hmS, mask_bridge _ _ _ hk hmask, hrel.len_eq,
      Nat.mod_mod_of_dvd _ hdvd] at hse
    rw [List.getD_eq_getElem?_getD, List.getD_eq_getElem?_getD,
      List.getElem?_set_ne (fun he => h2 he.symm),
      List.getElem?_set_ne (fun he => hbc he.symm),
      ← List.getD_eq_getElem?_getD, ← List.getD_eq_getElem?_getD]
    exact hse

/-- A `push` acts identically on shift-related states: same outcome,
and the successors remain shift-related. -/
theorem push_shiftRel {α : Type} {rb rbs : RingBuf α} {o : Nat}
    (hk : ∃ k ≤ 63, rb.buf.length = 2 ^ k)
    (hmask : rb.mask = rb.buf.length - 1)
    (ht : rb.tail < USZ)
    (hrel : ShiftRel rb rbs o) (v : α) :
    (rb.push v = none → rbs.push v = none) ∧
    (∀ rb' r, rb.push v = some (rb', r) →
      ∃ rbs', rbs.push v = some (rbs', r) ∧ ShiftRel rb' rbs' o) := by
  have hslot : rbs.buf.getD (rbs.head &&& rbs.mask) none =
      rb.buf.getD (rb.head &&& rb.mask) none := by
    rw [hrel.head_eq]; exact hrel.slot_eq rb.head
  have hfull : wrapSub rbs.head rbs.tail = wrapSub rb.head rb.tail := by
    rw [hrel.head_eq, hrel.tail_eq]
    exact wrapSub_shift rb.head rb.tail o ht
  cases hx : rb.buf.getD (rb.head &&& rb.mask) none with
  | some w =>
    rw [hx] at hslot
    constructor
    · intro hp
      unfold RingBuf.push at hp ⊢
      simp only [hx] at hp
      simp only [hslot, hrel.len_eq, hfull]
      split at hp
      · exact absurd hp (by simp)
      · next hc => rw [if_neg hc]
    · intro rb' r hp
      unfold RingBuf.push at hp ⊢
      simp only [hx] at hp
      simp only [hslot, hrel.len_eq, hfull]
      split at hp
      · next hc =>
        simp only [Option.some.injEq, Prod.mk.injEq] at hp
        refine ⟨rbs, ?_, ?_⟩
        · rw [if_pos hc, ← hp.2]
        · rw [← hp.1]; exact hrel
      · exact absurd hp (by simp)
  | none =>
    rw [hx] at hslot
    constructor
    · intro hp
      unfold RingBuf.push at hp
      simp only [hx] at hp
      exact absurd hp (by simp)
    · intro rb' r hp
      unfold RingBuf.push at hp ⊢
      simp only [hx] at hp
      simp only [hslot]
      simp only [Option.some.injEq, Prod.mk.injEq] at hp
      refine ⟨⟨rbs.buf.set (rbs.head &&& rbs.mask) (some v), (rbs.head + 1) % USZ,
        rbs.mask, rbs.tail⟩, by rw [← hp.2], ?_⟩
      rw [← hp.1]
      refine ⟨?_, hrel.tail_eq, hrel.mask_eq, ?_, ?_⟩
      · show (rbs.head + 1) % USZ = ((rb.head + 1) % USZ + o) % USZ
        rw [hrel.head_eq, Nat.mod_add_mod, Nat.mod_add_mod]
        congr 1
        omega
      · show (rbs.buf.set (rbs.head &&& rbs.mask) (some v)).length =
          (rb.buf.set (rb.head &&& rb.mask) (some v)).length
        rw [List.length_set, List.length_set]
        exact hrel.len_eq
      · intro c
        show (rbs.buf.set (rbs.head &&& rbs.mask) (some v)).getD
            (((c + o) % USZ) &&& rbs.mask) none =
          (rb.buf.set (rb.head &&& rb.mask) (some v)).getD (c &&& rb.mask) none
        rw [hrel.head_eq]
        exact shiftRel_set hk hmask hrel rb.head (some v) c

/-- A `pop` acts identically on shift-related states: same outcome and
value, and the successors remain shift-related. -/
theorem pop_shiftRel {α : Type} {rb rbs : RingBuf α} {o : Nat}
    (hk : ∃ k ≤ 63, rb.buf.length = 2 ^ k)
    (hmask : rb.mask = rb.buf.length - 1)
    (hrel : ShiftRel rb rbs o) :
    (rbs.pop).2 = (rb.pop).2 ∧ ShiftRel (rb.pop).1 (rbs.pop).1 o := by
  have hslot : rbs.buf.getD (rbs.tail &&& rbs.mask) none =
      rb.buf.getD (rb.tail &&& rb.mask) none := by
    rw [hrel.tail_eq]; exact hrel.slot_eq rb.tail
  cases hx : rb.buf.getD (rb.tail &&& rb.mask) none with
  | none =>
    rw [hx] at hslot
    unfold RingBuf.pop
    simp only [hx, hslot]
    exact ⟨trivial, hrel⟩
  | some w =>
    rw [hx] at hslot
    unfold RingBuf.pop
    simp only [hx, hslot]
    refine ⟨trivial, hrel.head_eq, ?_, hrel.mask_eq, ?_, ?_⟩
    · show (rbs.tail + 1) % USZ = ((rb.tail + 1) % USZ + o) % USZ
      rw [hrel.tail_eq, Nat.mod_add_mod, Nat.mod_add_mod]
      congr 1
      omega
    · show (rbs.buf.set (rbs.tail &&& rbs.mask) none).length =
        (rb.buf.set (rb.tail &&& rb.mask) none).length
      rw [List.length_set, List.length_set]
      exact hrel.len_eq
    · intro c
      show (rbs.buf.set (rbs.tail &&& rbs.mask) none).getD
          (((c + o) % USZ) &&& rbs.mask) none =
        (rb.buf.set (rb.tail &&& rb.mask) none).getD (c &&& rb.mask) none
      rw [hrel.tail_eq]
      exact shiftRel_set hk hmask hrel rb.tail none c

/-! Counting occupied slots. -/

theorem getD_default_irrel {γ : Type} :
    ∀ (l : List γ) (i : Nat) (a b : γ), i < l.length → l.getD i a = l.getD i b
  | c :: t, 0, a, b, _ => rfl
  | c :: t, i + 1, a, b, h => by
    rw [List.getD_cons_succ, List.getD_cons_succ]
    exact getD_default_irrel t i a b (by simpa using h)

theorem countP_set_of {γ : Type} (p : γ → Bool) :
    ∀ (l : List γ) (i : Nat) (x : γ), i < l.length →
      (l.set i x).countP p + (if p (l.getD i x) then 1 else 0) =
      l.countP p + (if p x then 1 else 0)
  | c :: t, 0, x, _ => by
    rw [List.set_cons_zero, List.getD_cons_zero, List.countP_cons, List.countP_cons]
    omega
  | c :: t, i + 1, x, h => by
    rw [List.set_cons_succ, List.getD_cons_succ, List.countP_cons, List.countP_cons]
    have ih := countP_set_of p t i x (by simpa using h)
    omega

/-! Claim theorems. -/

/-- C1: over every interleaved sequence of push and pop operations on a
freshly constructed buffer, the values whose push reported success
equal the values returned by successful pops followed by the values
still buffered — so the popped sequence is exactly the successfully
pushed sequence in order, each value delivered exactly once; and the
`bounded(1)` scenario pushing `0, 1, 2` with an intervening pop after
each yields exactly `0, 1, 2`. -/
theorem fifo_exact_delivery :
    (∀ (α : Type) (cap : Nat) (rb0 rbf : RingBuf α) (ops : List (Op α)) (ps qs : List α),
        cap < USZ → RingBuf.new α cap = some rb0 →
        runOps rb0 ops = some (rbf, ps, qs) →
        ps = qs ++ rbf.absQ) ∧
    runOps rb1 [Op.push 0, Op.pop, Op.push 1, Op.pop, Op.push 2, Op.pop] =
      some (⟨[none], 3, 0, 3⟩, [0, 1, 2], [0, 1, 2]) := by
  constructor
  · intro α cap rb0 rbf ops ps qs hcap hnew hrun
    obtain ⟨hi, habs, _, _⟩ := Inv_new cap rb0 hcap hnew
    obtain ⟨rbf', ps', qs', hrun', _, heq⟩ := runOps_spec ops rb0 hi
    rw [hrun] at hrun'
    simp only [Option.some.injEq, Prod.mk.injEq] at hrun'
    obtain ⟨h1, h2, h3⟩ := hrun'
    subst h1 h2 h3
    rw [habs] at heq
    simpa using heq
  · rfl

theorem fifo_exact_delivery_witness :
    ([0, 1, 2] : List Nat) = [0, 1, 2] ++ (⟨[none], 3, 0, 3⟩ : RingBuf Nat).absQ :=
  fifo_exact_delivery.1 Nat 1 rb1 ⟨[none], 3, 0, 3⟩
    [Op.push 0, Op.pop, Op.push 1, Op.pop, Op.push 2, Op.pop] [0, 1, 2] [0, 1, 2]
    (by decide) rfl fifo_exact_delivery.2

/-- C2: in every reachable state the wrapping difference `head - tail`
lies between 0 and the capacity inclusive, and `push` returns the
full-buffer `Err` exactly when `head - tail` equals the capacity. -/
theorem capacity_bound_and_full_err {α : Type} {cap : Nat} {rb : RingBuf α}
    (h : Reachable α cap rb) (v : α) :
    rb.dist ≤ cap ∧
    ((∃ v', rb.push v = some (rb, some v')) ↔ rb.dist = cap) := by
  obtain ⟨hi, hlen⟩ := h.inv
  subst hlen
  refine ⟨hi.dist_le, ?_, ?_⟩
  · rintro ⟨v', he⟩
    by_contra hne
    have hlt : rb.dist < rb.buf.length := Nat.lt_of_le_of_ne hi.dist_le hne
    obtain ⟨rb', h1, _⟩ := push_ok hi v hlt
    rw [h1] at he
    simp at he
  · intro hd
    exact ⟨v, push_full hi v hd⟩

theorem capacity_bound_and_full_err_witness :
    rb1.dist ≤ 1 ∧ ((∃ v', rb1.push 5 = some (rb1, some v')) ↔ rb1.dist = 1) :=
  capacity_bound_and_full_err (@Reachable.init Nat 1 rb1 (by decide) rfl) 5

/-- C6: a `push` that returns `Err` hands back exactly the value passed
in with the whole state (cursors, occupancy flags, slot contents)
unchanged; a `pop` that returns `Empty` leaves the state unchanged; on
reachable states a genuinely full buffer makes `push` fail this way and
an empty buffer makes `pop` return `Empty`. -/
theorem failed_ops_leave_state_unchanged {α : Type} :
    (∀ (rb rb' : RingBuf α) (v v' : α),
        rb.push v = some (rb', some v') → rb' = rb ∧ v' = v) ∧
    (∀ rb rb' : RingBuf α, rb.pop = (rb', none) → rb' = rb) ∧
    (∀ (cap : Nat) (rb : RingBuf α) (v : α), Reachable α cap rb →
        rb.dist = rb.buf.length → rb.push v = some (rb, some v)) ∧
    (∀ (cap : Nat) (rb : RingBuf α), Reachable α cap rb →
        rb.absQ = [] → rb.pop = (rb, none)) := by
  refine ⟨?_, ?_, ?_, ?_⟩
  · intro rb rb' v v' h
    exact push_err_eq h
  · intro rb rb' h
    exact pop_none_eq h
  · intro cap rb v hr hd
    exact push_full hr.inv.1 v hd
  · intro cap rb hr habs
    exact pop_empty hr.inv.1 ((absQ_nil_iff hr.inv.1).mp habs)

theorem failed_ops_leave_state_unchanged_witness :
    rb1.pop = (rb1, none) :=
  (@failed_ops_leave_state_unchanged Nat).2.2.2 1 rb1
    (@Reachable.init Nat 1 rb1 (by decide) rfl) rfl

/-- C7: push and pop never block — in every reachable state `push`
returns an outcome (success or full) on its first attempt, so its
retry branch is unreachable; `pop` is a total function returning a
value or `Empty` by construction. -/
theorem push_pop_never_block {α : Type} {cap : Nat} {rb : RingBuf α}
    (h : Reachable α cap rb) (v : α) :
    (rb.push v).isSome = true ∧
    ((∃ rb', rb.push v = some (rb', none)) ∨ rb.push v = some (rb, some v)) := by
  have hc := push_cases h.inv.1 v
  refine ⟨?_, hc⟩
  rcases hc with ⟨rb', he⟩ | he <;> rw [he] <;> rfl

theorem push_pop_never_block_witness :
    (rb1.push 7).isSome = true ∧
    ((∃ rb', rb1.push 7 = some (rb', none)) ∨ rb1.push 7 = some (rb1, some 7)) :=
  push_pop_never_block (@Reachable.init Nat 1 rb1 (by decide) rfl) 7

/-- C3: `recv` and `try_recv` report `Disconnected` only when the pop
probe of that same call came back empty; while any pushed-but-unpopped
value remains buffered, a `recv` probe returns that value and never
`Disconnected`, whatever the strong count; on an empty buffer
`try_recv` returns `Empty` iff the strong count exceeds 1 and
`Disconnected` iff it equals 1. -/
theorem recv_drains_before_disconnect {α : Type} {cap : Nat} (ch : Channel α)
    (h : Reachable α cap ch.rb) :
    (∀ ch' e, ch.recvStep = (ch', some (.error e)) → (ch.rb.pop).2 = none) ∧
    (∀ ch' e, ch.tryRecv = (ch', .error e) → (ch.rb.pop).2 = none) ∧
    (∀ v rest, ch.rb.absQ = v :: rest →
      ∃ ch', ch.recvStep = (ch', some (.ok v)) ∧ ch'.rb.absQ = rest) ∧
    (ch.rb.absQ = [] → 1 ≤ ch.strongCount →
      (ch.tryRecv.2 = .error .Empty ↔ 1 < ch.strongCount) ∧
      (ch.tryRecv.2 = .error .Disconnected ↔ ch.strongCount = 1)) := by
  obtain ⟨hi, _⟩ := h.inv
  refine ⟨?_, ?_, ?_, ?_⟩
  · intro ch' e hrs
    unfold Channel.recvStep at hrs
    cases hp : ch.rb.pop with
    | mk rb2 r =>
      rw [hp] at hrs
      cases r with
      | some v => simp at hrs
      | none => rfl
  · intro ch' e hrs
    unfold Channel.tryRecv at hrs
    cases hp : ch.rb.pop with
    | mk rb2 r =>
      rw [hp] at hrs
      cases r with
      | some v => simp at hrs
      | none => rfl
  · intro v rest habs
    have hd : 1 ≤ ch.rb.dist := by
      have hlen := absQ_length hi
      rw [habs] at hlen
      simp at hlen
      omega
    obtain ⟨w, rb2, hpop, _, _, _, _, _, hinv2, _, habs2⟩ := pop_some hi hd
    rw [habs] at habs2
    injection habs2 with hv hrest
    refine ⟨{ ch with rb := rb2 }, ?_, ?_⟩
    · unfold Channel.recvStep
      rw [hpop, hv]
    · show rb2.absQ = rest
      exact hrest.symm
  · intro hnil hcount
    have hd : ch.rb.dist = 0 := (absQ_nil_iff hi).mp hnil
    have hpop := pop_empty hi hd
    have htr : ch.tryRecv.2 = (if ch.strongCount = 1
        then Except.error TryRecvError.Disconnected
        else Except.error TryRecvError.Empty) := by
      by_cases hc : ch.strongCount = 1 <;>
        simp [Channel.tryRecv, hpop, hc]
    by_cases hc : ch.strongCount = 1
    · rw [htr, if_pos hc]
      refine ⟨⟨fun he => absurd he (by simp), fun hlt => absurd hc (by omega)⟩,
        ⟨fun _ => hc, fun _ => rfl⟩⟩
    · rw [htr, if_neg hc]
      refine ⟨⟨fun _ => by omega, fun _ => rfl⟩,
        ⟨fun he => absurd he (by simp), fun hcc => absurd hcc hc⟩⟩

theorem recv_drains_before_disconnect_witness :
    ((⟨rb1, 1, true⟩ : Channel Nat).tryRecv.2 = .error .Empty ↔
      1 < (⟨rb1, 1, true⟩ : Channel Nat).strongCount) :=
  ((recv_drains_before_disconnect ⟨rb1, 1, true⟩
    (@Reachable.init Nat 1 rb1 (by decide) rfl)).2.2.2 rfl (by decide)).1

/-- C4 counterexample: the claim fails as stated — with the receiver
released but two `Sender` clones alive the strong count is 2, so a
`send` into a non-full buffer pushes and reports success instead of
returning the receiver-gone failure. -/
theorem send_after_receiver_drop_cex :
    ¬ (∀ (ch : Channel Nat) (v : Nat), ch.receiverAlive = false → 1 ≤ ch.senders →
        ∃ e, (ch.send v).2 = some (.error e)) := by
  intro hall
  obtain ⟨e, he⟩ := hall ⟨rb1, 2, false⟩ 0 rfl (by decide)
  rw [show (Channel.send ⟨rb1, 2, false⟩ 0).2 = some (.ok ()) from rfl] at he
  exact absurd he (by simp)

/-- C4 amended: once the receiver has been released, a `send` on the
sole surviving Sender handle (shared count 1) returns the
receiver-gone failure immediately; with several surviving clones the
disconnection heuristic does not fire and `send` may report success. -/
theorem send_fails_when_sole_handle {α : Type} (ch : Channel α) (v : α)
    (hr : ch.receiverAlive = false) (hs : ch.senders = 1) :
    ch.send v = (ch, some (.error ⟨v⟩)) := by
  have hc : ch.strongCount = 1 := by
    simp [Channel.strongCount, hr, hs]
  unfold Channel.send
  rw [if_pos hc]

theorem send_fails_when_sole_handle_witness :
    Channel.send ⟨rb1, 1, false⟩ (5 : Nat) = (⟨rb1, 1, false⟩, some (.error ⟨5⟩)) :=
  send_fails_when_sole_handle ⟨rb1, 1, false⟩ 5 rfl rfl

/-- C5: if the strong count is 1 when `send(v)` is called, it fails
immediately with the channel state untouched and no enqueue attempted;
and whenever `send` fails, the error carries exactly the value `v`
passed in. -/
theorem send_error_carries_value {α : Type} (ch : Channel α) (v : α) :
    (ch.strongCount = 1 → ch.send v = (ch, some (.error ⟨v⟩))) ∧
    (∀ e, (ch.send v).2 = some (.error e) → e = ⟨v⟩) := by
  constructor
  · intro hc
    unfold Channel.send
    rw [if_pos hc]
  · intro e he
    unfold Channel.send at he
    by_cases hc : ch.strongCount = 1
    · rw [if_pos hc] at he
      simp only [Option.some.injEq] at he
      cases he
      rfl
    · rw [if_neg hc] at he
      cases hx : ch.rb.push v with
      | none =>
        rw [hx] at he
        simp at he
      | some p =>
        obtain ⟨rb', r⟩ := p
        cases r with
        | none =>
          rw [hx] at he
          simp at he
        | some v' =>
          rw [hx] at he
          simp [hc] at he

theorem send_error_carries_value_witness :
    Channel.send ⟨rb1, 0, true⟩ (9 : Nat) = (⟨rb1, 0, true⟩, some (.error ⟨9⟩)) :=
  (send_error_carries_value ⟨rb1, 0, true⟩ 9).1 rfl

/-- C8: `bounded(cap)` aborts exactly when `cap` is not a positive
power of two, before any handle exists; `bounded(3)` aborts, while
`bounded(4)` and `bounded(1)` return a connected pair (strong count 2,
one sender, live receiver) over exactly `cap` slots. -/
theorem bounded_requires_pow_two :
    (∀ (α : Type) (cap : Nat), bounded α cap = none ↔ ¬ ∃ k, cap = 2 ^ k) ∧
    bounded Nat 3 = none ∧
    (∃ ch : Channel Nat, bounded Nat 4 = some ch ∧ ch.rb.buf.length = 4 ∧
      ch.senders = 1 ∧ ch.receiverAlive = true ∧ ch.strongCount = 2) ∧
    (∃ ch : Channel Nat, bounded Nat 1 = some ch ∧ ch.rb.buf.length = 1 ∧
      ch.senders = 1 ∧ ch.receiverAlive = true ∧ ch.strongCount = 2) := by
  refine ⟨?_, rfl, ?_, ?_⟩
  · intro α cap
    constructor
    · intro hn hex
      rw [← isPowerOfTwo_iff] at hex
      unfold bounded RingBuf.new at hn
      rw [if_pos hex] at hn
      simp at hn
    · intro hnex
      have hfalse : isPowerOfTwo cap = false := by
        cases hb : isPowerOfTwo cap
        · rfl
        · exact absurd ((isPowerOfTwo_iff cap).mp hb) hnex
      unfold bounded RingBuf.new
      rw [if_neg (by rw [hfalse]; simp)]
      rfl
  · exact ⟨⟨⟨List.replicate 4 none, 0, 3, 0⟩, 1, true⟩, rfl, rfl, rfl, rfl, rfl⟩
  · exact ⟨⟨⟨List.replicate 1 none, 0, 0, 0⟩, 1, true⟩, rfl, rfl, rfl, rfl, rfl⟩

theorem bounded_requires_pow_two_witness : bounded Nat 3 = none :=
  (bounded_requires_pow_two.1 Nat 3).mpr (by
    rintro ⟨k, hk⟩
    rcases k with _ | _ | k
    · exact absurd hk (by decide)
    · exact absurd hk (by decide)
    · rw [pow_succ, pow_succ] at hk
      have h1 : 0 < 2 ^ k := Nat.two_pow_pos k
      omega)

/-- C9: cursor wraparound is benign — relabelling a state by any
common cursor offset (both cursors advanced by `o` modulo `2^64`,
slots relabelled through `cursor & mask`, as realised by
`shiftCursors`) leaves the outcome and delivered value of `push` and
`pop` unchanged and keeps the successor states related by the same
offset, because slot indexing uses `cursor & mask` and the fullness
test uses the wrapping difference rather than absolute cursor
magnitudes; so behaviour at cursors wrapped past the machine maximum
matches behaviour from zero. -/
theorem cursor_shift_invariance {α : Type} (rb rbs : RingBuf α) (o : Nat) (v : α)
    (hk : ∃ k ≤ 63, rb.buf.length = 2 ^ k)
    (hmask : rb.mask = rb.buf.length - 1)
    (ht : rb.tail < USZ)
    (hrel : ShiftRel rb rbs o) :
    ShiftRel rb (shiftCursors rb o) o ∧
    (rb.push v = none → rbs.push v = none) ∧
    (∀ rb' r, rb.push v = some (rb', r) →
      ∃ rbs', rbs.push v = some (rbs', r) ∧ ShiftRel rb' rbs' o) ∧
    ((rbs.pop).2 = (rb.pop).2 ∧ ShiftRel (rb.pop).1 (rbs.pop).1 o) := by
  obtain ⟨h1, h2⟩ := push_shiftRel hk hmask ht hrel v
  exact ⟨shiftCursors_rel rb o hk hmask, h1, h2, pop_shiftRel hk hmask hrel⟩

theorem cursor_shift_invariance_witness :
    ((⟨[none], 2 ^ 64 - 1, 0, 2 ^ 64 - 1⟩ : RingBuf Nat).pop).2 = (rb1.pop).2 ∧
    ShiftRel (rb1.pop).1 ((⟨[none], 2 ^ 64 - 1, 0, 2 ^ 64 - 1⟩ : RingBuf Nat).pop).1
      (2 ^ 64 - 1) :=
  (cursor_shift_invariance rb1 ⟨[none], 2 ^ 64 - 1, 0, 2 ^ 64 - 1⟩ (2 ^ 64 - 1) 7
    ⟨0, by omega, rfl⟩ rfl (by decide)
    ⟨rfl, rfl, rfl, rfl, fun c => by
      show (⟨[none], 2 ^ 64 - 1, 0, 2 ^ 64 - 1⟩ : RingBuf Nat).buf.getD
          (((c + (2 ^ 64 - 1)) % USZ) &&& 0) none = rb1.buf.getD (c &&& 0) none
      rw [Nat.and_zero, Nat.and_zero]
      rfl⟩).2.2.2

/-- C10: in every reachable state a slot is occupied exactly when its
index is `c & mask` for a cursor `c` in the wrapping window
`[tail, head)`; the number of occupied slots equals the wrapping
difference `head - tail`; every successful push flips exactly one slot
from empty to occupied and every successful pop flips exactly one slot
from occupied to empty. -/
theorem occupancy_window_char {α : Type} {cap : Nat} {rb : RingBuf α}
    (h : Reachable α cap rb) :
    (∀ i < rb.buf.length, (rb.buf.getD i none).isSome = true ↔
        ∃ j < rb.dist, ((rb.tail + j) % USZ) &&& rb.mask = i) ∧
    rb.buf.countP Option.isSome = rb.dist ∧
    (∀ v rb', rb.push v = some (rb', none) →
        ∃ p, rb.buf.getD p none = none ∧ rb'.buf = rb.buf.set p (some v)) ∧
    (∀ w rb', rb.pop = (rb', some w) →
        ∃ p, rb.buf.getD p none = some w ∧ rb'.buf = rb.buf.set p none) := by
  have hcount : rb.buf.countP Option.isSome = rb.dist := by
    induction h with
    | init rb hcap hnew =>
      obtain ⟨hi, _, hd0, _⟩ := Inv_new _ rb hcap hnew
      rw [hd0]
      unfold RingBuf.new at hnew
      split at hnew
      · injection hnew with hnew
        subst hnew
        apply List.countP_eq_zero.mpr
        intro a ha
        rw [List.eq_of_mem_replicate ha]
        simp
      · exact absurd hnew (by simp)
    | push rb rb2 v r hr hp ih =>
      obtain ⟨hi, hlen⟩ := hr.inv
      rcases Nat.lt_or_ge rb.dist rb.buf.length with hlt | hge
      · obtain ⟨rbx, he, hbuf, hslot, _, _, _, _, hdist, _⟩ := push_ok hi v hlt
        rw [he] at hp
        simp only [Option.some.injEq, Prod.mk.injEq] at hp
        obtain ⟨h1, _⟩ := hp
        subst h1
        have hplt : rb.head % rb.buf.length < rb.buf.length := Nat.mod_lt _ hi.cap_pos
        have hcs := countP_set_of Option.isSome rb.buf (rb.head % rb.buf.length)
          (some v) hplt
        rw [getD_default_irrel rb.buf _ (some v) none hplt, hslot] at hcs
        simp at hcs
        rw [hbuf, hdist]
        omega
      · have he := push_full hi v (Nat.le_antisymm hi.dist_le hge)
        rw [he] at hp
        simp only [Option.some.injEq, Prod.mk.injEq] at hp
        obtain ⟨h1, _⟩ := hp
        subst h1
        exact ih
    | pop rb rb2 r hr hp ih =>
      obtain ⟨hi, hlen⟩ := hr.inv
      rcases Nat.eq_zero_or_pos rb.dist with hd0 | hd1
      · have he := pop_empty hi hd0
        rw [he] at hp
        obtain ⟨h1, _⟩ := Prod.mk.injEq .. ▸ hp
        subst h1
        exact ih
      · obtain ⟨w, rbx, he, hslot, hbuf, _, _, _, _, hdist, _⟩ := pop_some hi hd1
        rw [he] at hp
        obtain ⟨h1, _⟩ := Prod.mk.injEq .. ▸ hp
        subst h1
        have htlt : rb.tail % rb.buf.length < rb.buf.length := Nat.mod_lt _ hi.cap_pos
        have hcs := countP_set_of Option.isSome rb.buf (rb.tail % rb.buf.length)
          none htlt
        rw [hslot] at hcs
        simp at hcs
        rw [hbuf, hdist]
        omega
  obtain ⟨hi, hlen⟩ := h.inv
  refine ⟨?_, hcount, ?_, ?_⟩
  · intro i hilt
    rw [hi.slots i hilt]
    constructor
    · rintro ⟨j, hj, hje⟩
      refine ⟨j, hj, ?_⟩
      rw [hi.mask_mod, Nat.mod_mod_of_dvd _ hi.cap_dvd]
      exact hje
    · rintro ⟨j, hj, hje⟩
      refine ⟨j, hj, ?_⟩
      rw [hi.mask_mod, Nat.mod_mod_of_dvd _ hi.cap_dvd] at hje
      exact hje
  · intro v rb' hp
    rcases Nat.lt_or_ge rb.dist rb.buf.length with hlt | hge
    · obtain ⟨rbx, he, hbuf, hslot, _, _, _, _, _, _⟩ := push_ok hi v hlt
      rw [he] at hp
      simp only [Option.some.injEq, Prod.mk.injEq] at hp
      obtain ⟨h1, _⟩ := hp
      subst h1
      exact ⟨rb.head % rb.buf.length, hslot, hbuf⟩
    · have he := push_full hi v (Nat.le_antisymm hi.dist_le hge)
      rw [he] at hp
      simp at hp
  · intro w rb' hp
    rcases Nat.eq_zero_or_pos rb.dist with hd0 | hd1
    · have he := pop_empty hi hd0
      rw [he] at hp
      simp at hp
    · obtain ⟨w2, rbx, he, hslot, hbuf, _, _, _, _, _, _⟩ := pop_some hi hd1
      rw [he] at hp
      simp only [Prod.mk.injEq, Option.some.injEq] at hp
      obtain ⟨h1, h2⟩ := hp
      subst h1 h2
      exact ⟨rb.tail % rb.buf.length, hslot, hbuf⟩

theorem occupancy_window_char_witness :
    rb1.buf.countP Option.isSome = rb1.dist :=
  (occupancy_window_char (@Reachable.init Nat 1 rb1 (by decide) rfl)).2.1

end SimpleChannels
